import Mathlib

/- Verification of the fixed-size worker thread pool in src/src/os_threadpool.c
   and of the parallel graph-sum program in src/src/parallel.c.

   The repository ships only the two .c files; the headers os_threadpool.h,
   os_list.h and os_graph.h are not under src/.  Where a definition depends on
   those headers it is modelled from the spec and says so in its doc comment.

   Mutex-protected critical sections of the C code are embedded as atomic state
   transformers; condition-variable waits become guarded transitions of a
   labelled transition system over the whole program state. -/

namespace OsTp

/-- Modelled from the spec: os_threadpool.h (the os_task_t record) is not under
src/.  Per spec section 3, a Task is an action (kept as an opaque callable
identifier), an owned argument, and an optional destructor; destroy_arg is the
nullable function pointer of create_task (os_threadpool.c lines 13-25). -/
structure os_task (α : Type) where
  action : Nat
  argument : α
  destroy_arg : Option Nat
deriving DecidableEq

/-- The observable effects of disposing a task: a call of the destructor on the
task's argument, and the free of the task object itself. -/
inductive DisposalEvent (α : Type) where
  | destructorCall (fn : Nat) (arg : α)
  | freeTask
deriving DecidableEq

/-- destroy_task (os_threadpool.c lines 28-33): if t->destroy_arg is non-NULL,
call t->destroy_arg(t->argument); then free(t).  The embedding returns the list
of effects in program order. -/
def destroy_task {α : Type} (t : os_task α) : List (DisposalEvent α) :=
  (match t.destroy_arg with
   | some f => [DisposalEvent.destructorCall f t.argument]
   | none => []) ++ [DisposalEvent.freeTask]

/-- The shared queue state of os_threadpool_t.  Modelled from the spec for what
the missing header os_threadpool.h declares: per spec section 3, pending is the
ordered task sequence (os_list.h's intrusive list is also not under src/;
list_add inserts right after the head and dequeue_task removes head.prev, the
oldest entry, which this abstraction renders as: enqueue appends at the tail
and the list head is the oldest entry), waiting_threads is an integer count,
stop_work a boolean flag, num_threads the fixed worker count. -/
structure Pool (τ : Type) where
  pending : List τ
  waiting_threads : Int
  stop_work : Bool
  num_threads : Nat
deriving DecidableEq

/-- enqueue_task (os_threadpool.c lines 45-67), the whole mutex-protected
section as one atomic transformer: signal cond_queue if the queue was empty
(the Bool records whether the signal was issued), then add the task.  The
function is total: once the lock is held the operation cannot fail. -/
def enqueue_task {τ : Type} (tp : Pool τ) (t : τ) : Pool τ × Bool :=
  ({ tp with pending := tp.pending ++ [t] }, tp.pending.isEmpty)

/-- Result of the entry section of dequeue_task: the updated queue state,
whether cond_queue was broadcast, and whether the caller proceeds into the
pthread_cond_wait loop. -/
structure EnterResult (τ : Type) where
  pool : Pool τ
  broadcast : Bool
  waits : Bool

/-- Entry section of dequeue_task (os_threadpool.c lines 86-104), performed
under one mutex acquisition: if waiting_threads == num_threads - 1 then set
stop_work and broadcast cond_queue; increment waiting_threads; then evaluate
the while condition (queue empty and stop_work not set) that decides whether
the caller blocks in pthread_cond_wait. -/
def dequeue_enter {τ : Type} (tp : Pool τ) : EnterResult τ :=
  let fire := tp.waiting_threads = (tp.num_threads : Int) - 1
  let tp1 := if fire then { tp with stop_work := true } else tp
  let tp2 := { tp1 with waiting_threads := tp1.waiting_threads + 1 }
  { pool := tp2, broadcast := decide fire,
    waits := tp2.pending.isEmpty && !tp2.stop_work }

/-- Exit section of dequeue_task (os_threadpool.c lines 106-122), reached after
the while loop: if the queue is non-empty remove the oldest entry (head.prev of
the intrusive list, the head of this FIFO abstraction) and signal work_done;
decrement waiting_threads; return the task or NULL. -/
def dequeue_finish {τ : Type} (tp : Pool τ) : Option τ × Pool τ :=
  match tp.pending with
  | [] => (none, { tp with waiting_threads := tp.waiting_threads - 1 })
  | t :: rest =>
      (some t, { tp with pending := rest, waiting_threads := tp.waiting_threads - 1 })

/-- A full dequeue_task call along the path that never blocks, i.e. when the
while condition is false on entry (in particular whenever the queue is
non-empty): entry section followed by exit section under the same single mutex
acquisition. -/
def dequeue_task_nowait {τ : Type} (tp : Pool τ) : Option τ × Pool τ :=
  dequeue_finish (dequeue_enter tp).pool

/-- Claim C1: in a dequeue_task call that finds pending empty (and with
stop_work not yet set), the entry section - one atomic mutex-protected
transformer, so the idle-count test and the emptiness of the queue hold under
the same single lock acquisition - sets the shutdown flag if and only if the
caller's incremented idle count equals the worker count while pending is still
empty, and it broadcasts cond_queue exactly when it sets the flag. -/
theorem dequeue_shutdown_trigger_iff {τ : Type} (s : Pool τ)
    (hempty : s.pending = []) (hstop : s.stop_work = false) :
    ((dequeue_enter s).pool.stop_work = true ↔
      ((dequeue_enter s).pool.waiting_threads = (s.num_threads : Int) ∧
        (dequeue_enter s).pool.pending = [])) ∧
    ((dequeue_enter s).broadcast = (dequeue_enter s).pool.stop_work) ∧
    (dequeue_enter s).pool.waiting_threads = s.waiting_threads + 1 := by
  by_cases hfire : s.waiting_threads = (s.num_threads : Int) - 1 <;>
    simp [dequeue_enter, hfire, hempty, hstop] <;> omega

/-- Witness for C1 at a concrete queue state: two workers, one already idle,
empty queue, shutdown not yet declared. -/
theorem dequeue_shutdown_trigger_iff_witness :
    (((dequeue_enter (⟨[], 1, false, 2⟩ : Pool Nat)).pool.stop_work = true ↔
      ((dequeue_enter (⟨[], 1, false, 2⟩ : Pool Nat)).pool.waiting_threads =
          ((⟨[], 1, false, 2⟩ : Pool Nat).num_threads : Int) ∧
        (dequeue_enter (⟨[], 1, false, 2⟩ : Pool Nat)).pool.pending = [])) ∧
    ((dequeue_enter (⟨[], 1, false, 2⟩ : Pool Nat)).broadcast =
      (dequeue_enter (⟨[], 1, false, 2⟩ : Pool Nat)).pool.stop_work) ∧
    (dequeue_enter (⟨[], 1, false, 2⟩ : Pool Nat)).pool.waiting_threads =
      (⟨[], 1, false, 2⟩ : Pool Nat).waiting_threads + 1) :=
  dequeue_shutdown_trigger_iff (⟨[], 1, false, 2⟩ : Pool Nat) rfl rfl

/-- Claim C4: a dequeue_task call that finds pending non-empty takes the
no-wait path and removes and returns the oldest pending entry (the head of the
FIFO abstraction, i.e. the entry enqueued earliest among those pending), and
the call leaves waiting_threads with its original value (the entry section's
increment is undone by the exit section's decrement within the same call). -/
theorem dequeue_fifo_oldest {τ : Type} (s : Pool τ) (t : τ) (rest : List τ)
    (h : s.pending = t :: rest) :
    (dequeue_task_nowait s).1 = some t ∧
    (dequeue_task_nowait s).2.pending = rest ∧
    (dequeue_task_nowait s).2.waiting_threads = s.waiting_threads := by
  by_cases hfire : s.waiting_threads = (s.num_threads : Int) - 1 <;>
    simp [dequeue_task_nowait, dequeue_enter, dequeue_finish, hfire, h]

/-- Witness for C4 at a concrete queue holding tasks 7 (oldest) and 8. -/
theorem dequeue_fifo_oldest_witness :
    (dequeue_task_nowait (⟨[7, 8], 0, false, 4⟩ : Pool Nat)).1 = some 7 ∧
    (dequeue_task_nowait (⟨[7, 8], 0, false, 4⟩ : Pool Nat)).2.pending = [8] ∧
    (dequeue_task_nowait (⟨[7, 8], 0, false, 4⟩ : Pool Nat)).2.waiting_threads =
      (⟨[7, 8], 0, false, 4⟩ : Pool Nat).waiting_threads :=
  dequeue_fifo_oldest (⟨[7, 8], 0, false, 4⟩ : Pool Nat) 7 [8] rfl

/-- Claim C8: enqueue_task is total (no error path once the lock is held) and
appends the given task at the tail of pending, growing it by exactly one, while
leaving waiting_threads, stop_work and num_threads unchanged. -/
theorem enqueue_appends_frame {τ : Type} (s : Pool τ) (t : τ) :
    (enqueue_task s t).1.pending = s.pending ++ [t] ∧
    (enqueue_task s t).1.pending.length = s.pending.length + 1 ∧
    (enqueue_task s t).1.waiting_threads = s.waiting_threads ∧
    (enqueue_task s t).1.stop_work = s.stop_work ∧
    (enqueue_task s t).1.num_threads = s.num_threads := by
  simp [enqueue_task]

/-- Claim C10: destroy_task invokes the destructor if and only if destroy_arg
is non-NULL; with a NULL destructor the only effect is freeing the task object
itself (the argument is neither freed nor passed to any callee), and with a
destructor it is called exactly once, on the task's argument, before the task
object is freed. -/
theorem destroy_task_destructor_iff {α : Type} (t : os_task α) :
    (t.destroy_arg = none → destroy_task t = [DisposalEvent.freeTask]) ∧
    (∀ f, t.destroy_arg = some f →
      destroy_task t =
        [DisposalEvent.destructorCall f t.argument, DisposalEvent.freeTask]) := by
  constructor
  · intro h; simp [destroy_task, h]
  · intro f h; simp [destroy_task, h]

/-- Witness for C10 on a destructor-less task and on a task with destructor 5:
both facts obtained by applying the theorem at those concrete tasks. -/
theorem destroy_task_destructor_iff_witness :
    destroy_task (⟨1, (42 : Nat), none⟩ : os_task Nat) = [DisposalEvent.freeTask] ∧
    destroy_task (⟨1, (42 : Nat), some 5⟩ : os_task Nat) =
      [DisposalEvent.destructorCall 5 42, DisposalEvent.freeTask] :=
  ⟨(destroy_task_destructor_iff (⟨1, (42 : Nat), none⟩ : os_task Nat)).1 rfl,
   (destroy_task_destructor_iff (⟨1, (42 : Nat), some 5⟩ : os_task Nat)).2 5 rfl⟩

/-! ## The whole program as a labelled transition system

Workers run thread_loop_function (os_threadpool.c lines 126-141); the main
thread runs main of parallel.c: enqueue the seed task, wait_for_completion
(os_threadpool.c lines 144-162), destroy_threadpool (lines 200-220).  Each
transition is one mutex-protected critical section of the C code.  The domain
side (the body a task's action runs under the graph mutex of parallel.c) is a
parameter: a function from domain state and task argument to the new domain
state plus the arguments (and destructor presence) of the tasks the action
hands to enqueue_task while still holding the domain mutex, exactly the shape
of process_graph/process_node. -/

/-- A task as it lives in the pool's queue during a run: a serial identifier
(in order of creation by create_task), the argument, and whether a destructor
was supplied. -/
structure Tsk where
  tid : Nat
  arg : Nat
  dtor : Bool
deriving DecidableEq

/-- Control location of one worker inside thread_loop_function: about to call
dequeue_task; blocked in pthread_cond_wait with its waiting_threads increment
counted; holding a dequeued task, about to run its action; running the action
with the listed enqueue calls still to perform; or returned NULL and exited. -/
inductive WPhase where
  | start
  | waiting
  | ready (t : Tsk)
  | enqueuing (t : Tsk) (todo : List (Nat × Bool))
  | exited
deriving DecidableEq

/-- Control location of the main thread of parallel.c: before process_node(0);
inside wait_for_completion's wait loop; joining the workers; about to run
destroy_threadpool; finished. -/
inductive MainPhase where
  | init
  | drainWait
  | joining
  | teardown
  | done
deriving DecidableEq

/-- State of the whole program: the shared queue, each worker's control
location, the domain state guarded by parallel.c's graph mutex, the holder of
that mutex, the main thread's location, the next fresh task identifier, the
identifiers passed to destroy_task so far (in order), and the identifiers of
tasks whose action has been invoked. -/
structure Sys (G : Type) where
  pool : Pool Tsk
  workers : List WPhase
  g : G
  graphLock : Option Nat
  mainPh : MainPhase
  nextId : Nat
  disposed : List Nat
  executed : List Nat
deriving DecidableEq

/-- Scheduling labels: which thread performs which critical section next. -/
inductive Label where
  | wEnter (i : Nat)
  | wWake (i : Nat)
  | wRun (i : Nat)
  | wEnq (i : Nat)
  | wFin (i : Nat)
  | mSeed
  | mDrain
  | mJoin
  | mTear
deriving DecidableEq

/-- Exit section of dequeue_task performed by worker i, plus the return-value
dispatch of thread_loop_function: a task moves the worker to ready, NULL makes
it exit the loop. -/
def finishStep {G : Type} (s : Sys G) (i : Nat) : Sys G :=
  match dequeue_finish s.pool with
  | (some t, p) => { s with pool := p, workers := s.workers.set i (WPhase.ready t) }
  | (none, p) => { s with pool := p, workers := s.workers.set i WPhase.exited }

/-- One transition of the program.  Returns none when the labelled thread is
not at the corresponding location or its guard (the condition re-checked after
a pthread_cond_wait wake, a mutex being free, pthread_join completion) does not
hold.
  wEnter: worker at the top of the loop runs dequeue_task's entry section and
either blocks in pthread_cond_wait or continues into the exit section.
  wWake: a blocked worker wakes (any signal, broadcast or spurious wake) and
leaves the wait loop only if the re-checked condition allows it.
  wRun: the worker's task action enters parallel.c's mutex-protected body
(process_graph) and computes the enqueue calls it will make.
  wEnq: one enqueue_task call made by the running action (process_node,
creating the task with create_task, destructor NULL in parallel.c).
  wFin: the action returns, releasing the graph mutex, and thread_loop_function
calls destroy_task on the finished task.
  mSeed: main's process_node(0) enqueues the seed task.
  mDrain: wait_for_completion's wait loop exits when the queue is empty or
stop_work is set.
  mJoin: the pthread_join loop returns once every worker has exited.
  mTear: destroy_threadpool passes every task still pending to destroy_task. -/
def step {G : Type} (run : G → Nat → G × List (Nat × Bool)) (seed : Nat × Bool)
    (l : Label) (s : Sys G) : Option (Sys G) :=
  match l with
  | Label.wEnter i =>
    match s.workers[i]? with
    | some WPhase.start =>
      let e := dequeue_enter s.pool
      if e.waits then
        some { s with pool := e.pool, workers := s.workers.set i WPhase.waiting }
      else
        some (finishStep { s with pool := e.pool } i)
    | _ => none
  | Label.wWake i =>
    match s.workers[i]? with
    | some WPhase.waiting =>
      if s.pool.pending.isEmpty && !s.pool.stop_work then none
      else some (finishStep s i)
    | _ => none
  | Label.wRun i =>
    match s.workers[i]?, s.graphLock with
    | some (WPhase.ready t), none =>
      some { s with g := (run s.g t.arg).1, graphLock := some i,
                    workers := s.workers.set i (WPhase.enqueuing t (run s.g t.arg).2),
                    executed := s.executed ++ [t.tid] }
    | _, _ => none
  | Label.wEnq i =>
    match s.workers[i]? with
    | some (WPhase.enqueuing t ((a, d) :: todo)) =>
      some { s with pool := (enqueue_task s.pool ⟨s.nextId, a, d⟩).1,
                    nextId := s.nextId + 1,
                    workers := s.workers.set i (WPhase.enqueuing t todo) }
    | _ => none
  | Label.wFin i =>
    match s.workers[i]? with
    | some (WPhase.enqueuing t []) =>
      some { s with graphLock := none, disposed := s.disposed ++ [t.tid],
                    workers := s.workers.set i WPhase.start }
    | _ => none
  | Label.mSeed =>
    match s.mainPh with
    | MainPhase.init =>
      some { s with pool := (enqueue_task s.pool ⟨s.nextId, seed.1, seed.2⟩).1,
                    nextId := s.nextId + 1, mainPh := MainPhase.drainWait }
    | _ => none
  | Label.mDrain =>
    match s.mainPh with
    | MainPhase.drainWait =>
      if s.pool.pending.isEmpty || s.pool.stop_work then
        some { s with mainPh := MainPhase.joining }
      else none
    | _ => none
  | Label.mJoin =>
    match s.mainPh with
    | MainPhase.joining =>
      if s.workers.all (fun w => w == WPhase.exited) then
        some { s with mainPh := MainPhase.teardown }
      else none
    | _ => none
  | Label.mTear =>
    match s.mainPh with
    | MainPhase.teardown =>
      some { s with disposed := s.disposed ++ s.pool.pending.map Tsk.tid,
                    pool := { s.pool with pending := [] },
                    mainPh := MainPhase.done }
    | _ => none

/-- The state right after create_threadpool(N) returned (os_threadpool.c lines
165-197: empty list, waiting_threads 0, stop_work 0, N spawned workers all at
the top of their loop) and before main has enqueued the seed task. -/
def initSys {G : Type} (N : Nat) (g0 : G) : Sys G :=
  { pool := { pending := [], waiting_threads := 0, stop_work := false, num_threads := N },
    workers := List.replicate N WPhase.start,
    g := g0, graphLock := none, mainPh := MainPhase.init,
    nextId := 0, disposed := [], executed := [] }

/-- Run a schedule: perform the labelled transitions in order, failing if one
is not enabled. -/
def execLabels {G : Type} (run : G → Nat → G × List (Nat × Bool))
    (seed : Nat × Bool) : List Label → Sys G → Option (Sys G)
  | [], s => some s
  | l :: ls, s =>
    match step run seed l s with
    | some s2 => execLabels run seed ls s2
    | none => none

/-! ## The graph-sum domain of parallel.c -/

/-- Modelled from the spec: os_graph.h is not under src/.  A graph is the list
of node values (info) and the adjacency lists; the visited array holds
NOT_VISITED = 0, with DONE rendered as 1. -/
structure Graph where
  info : List Int
  neigh : List (List Nat)
deriving DecidableEq

/-- The mutable domain state of parallel.c: the visited array of the graph and
the accumulated sum, both guarded by parallel.c's global mutex. -/
structure GraphState where
  visited : List Nat
  sum : Int
deriving DecidableEq

/-- process_graph (src/src/parallel.c lines 27-55): under the graph mutex, if
visited[idx] != NOT_VISITED return with no change; otherwise mark the node
DONE, add its value to sum, and hand each neighbour to process_node.  The
returned list is the node indices process_node will enqueue, in loop order. -/
def process_graph (g : Graph) (st : GraphState) (idx : Nat) : GraphState × List Nat :=
  if st.visited.getD idx 0 ≠ 0 then (st, [])
  else ({ visited := st.visited.set idx 1, sum := st.sum + g.info.getD idx 0 },
        g.neigh.getD idx [])

/-- The action parameter the pool runs for parallel.c: process_graph, with
every fanned-out task created by process_node via create_task(process_graph,
idx, NULL), i.e. with no destructor. -/
def runGraph (g : Graph) (st : GraphState) (a : Nat) : GraphState × List (Nat × Bool) :=
  ((process_graph g st a).1, (process_graph g st a).2.map (fun j => (j, false)))

/-- The end-to-end scenario graph of spec section 8: five nodes A..E rendered
as 0..4, values 1..5, edges A->B, B->C, C->A, C->D, D->E. -/
def graph5 : Graph :=
  { info := [1, 2, 3, 4, 5], neigh := [[1], [2], [0, 3], [4], []] }

/-- A trivial domain for claims about the pool alone: the action does nothing
and enqueues nothing. -/
def runUnit : Unit → Nat → Unit × List (Nat × Bool) := fun _ _ => ((), [])

/-- The premature-shutdown schedule: all four workers of create_threadpool(4)
enter dequeue_task before main's process_node(0) runs.  The fourth entry finds
waiting_threads == num_threads - 1 and sets stop_work; every worker exits; the
seed is enqueued afterwards and never executed. -/
def lostSeedTrace : List Label :=
  [Label.wEnter 0, Label.wEnter 1, Label.wEnter 2, Label.wEnter 3,
   Label.wWake 0, Label.wWake 1, Label.wWake 2,
   Label.mSeed, Label.mDrain, Label.mJoin]

/-- Claim C2 (code_bug evaluation): under lostSeedTrace, wait_for_completion
returns (the wait loop exits because stop_work is set and every join
completes) while the single submitted task is still pending and its action was
never invoked - the code does return before all submitted tasks have completed
execution. -/
theorem wait_for_completion_returns_with_unexecuted_task :
    (execLabels runUnit (0, false) lostSeedTrace (initSys 4 ())).map
        (fun s => (s.mainPh, s.nextId, s.executed, s.pool.pending.map Tsk.tid)) =
      some (MainPhase.teardown, 1, [], [0]) := by
  decide

/-- Claim C3 (code_bug evaluation): on the five-node scenario graph, the same
premature-shutdown schedule (followed by teardown) makes the program print
sum = 0 with no node visited, while the sequential schedule yields 15 with
every node visited once - so the result is not independent of scheduling. -/
theorem parallel_sum_schedule_dependent :
    (execLabels (runGraph graph5) (0, false) (lostSeedTrace ++ [Label.mTear])
        (initSys 4 ⟨[0, 0, 0, 0, 0], 0⟩)).map
        (fun s => (s.mainPh, s.g.sum, s.g.visited, s.executed)) =
      some (MainPhase.done, 0, [0, 0, 0, 0, 0], []) ∧
    (execLabels (runGraph graph5) (0, false)
        ([Label.mSeed,
          Label.wEnter 0, Label.wRun 0, Label.wEnq 0, Label.wFin 0,
          Label.wEnter 0, Label.wRun 0, Label.wEnq 0, Label.wFin 0,
          Label.wEnter 0, Label.wRun 0, Label.wEnq 0, Label.wEnq 0, Label.wFin 0,
          Label.wEnter 0, Label.wRun 0, Label.wFin 0,
          Label.wEnter 0, Label.wRun 0, Label.wEnq 0, Label.wFin 0,
          Label.wEnter 0, Label.wRun 0, Label.wFin 0,
          Label.wEnter 0, Label.wEnter 1, Label.wEnter 2, Label.wEnter 3,
          Label.wWake 0, Label.wWake 1, Label.wWake 2,
          Label.mDrain, Label.mJoin, Label.mTear])
        (initSys 4 ⟨[0, 0, 0, 0, 0], 0⟩)).map
        (fun s => (s.mainPh, s.g.sum, s.g.visited)) =
      some (MainPhase.done, 15, [1, 1, 1, 1, 1]) := by
  constructor <;> decide

/-- Claim C9: process_graph is idempotent per node: invoked on an index whose
visited mark is already set, it returns at once, leaving the sum and the whole
visited array unchanged and enqueuing nothing - so a node's value is added to
the sum at most once however many tasks name that node. -/
theorem process_graph_idempotent_visited (g : Graph) (st : GraphState) (idx : Nat)
    (h : st.visited.getD idx 0 ≠ 0) :
    process_graph g st idx = (st, []) := by
  unfold process_graph
  rw [if_pos h]

/-- Witness for C9: node 0 of the scenario graph already marked DONE. -/
theorem process_graph_idempotent_visited_witness :
    process_graph graph5 ⟨[1, 0, 0, 0, 0], 1⟩ 0 = (⟨[1, 0, 0, 0, 0], 1⟩, []) :=
  process_graph_idempotent_visited graph5 ⟨[1, 0, 0, 0, 0], 1⟩ 0 (by decide)

/-! ## Invariants of the transition system -/

/-- Field bookkeeping for the entry section: it leaves pending and num_threads
alone and increments waiting_threads. -/
theorem dequeue_enter_fields {τ : Type} (p : Pool τ) :
    (dequeue_enter p).pool.pending = p.pending ∧
    (dequeue_enter p).pool.waiting_threads = p.waiting_threads + 1 ∧
    (dequeue_enter p).pool.num_threads = p.num_threads := by
  simp only [dequeue_enter]
  split <;> simp

/-- The entry section never clears an already-set stop_work flag. -/
theorem dequeue_enter_stop_mono {τ : Type} (p : Pool τ) (h : p.stop_work = true) :
    (dequeue_enter p).pool.stop_work = true := by
  simp only [dequeue_enter]
  split <;> simp [h]

/-- The exit section leaves stop_work and num_threads alone and decrements
waiting_threads. -/
theorem dequeue_finish_fields {τ : Type} (p : Pool τ) :
    (dequeue_finish p).2.stop_work = p.stop_work ∧
    (dequeue_finish p).2.waiting_threads = p.waiting_threads - 1 ∧
    (dequeue_finish p).2.num_threads = p.num_threads := by
  cases hp : p.pending <;> simp [dequeue_finish, hp]

/-- Whether a worker control location counts in waiting_threads. -/
def isWaitingPh : WPhase → Bool
  | WPhase.waiting => true
  | _ => false

/-- Counting under a pointwise list update, in additive form. -/
theorem countP_set_add {β : Type} (p : β → Bool) :
    ∀ (ws : List β) (i : Nat) (a b : β), ws[i]? = some a →
      (ws.set i b).countP p + (if p a then 1 else 0) =
        ws.countP p + (if p b then 1 else 0)
  | [], i, a, b, h => by simp at h
  | x :: xs, 0, a, b, h => by
    simp only [List.getElem?_cons_zero, Option.some_inj] at h
    subst h
    simp only [List.set_cons_zero, List.countP_cons]
    cases hpx : p x <;> cases hpb : p b <;> simp [hpx, hpb] <;> omega
  | x :: xs, i + 1, a, b, h => by
    simp only [List.getElem?_cons_succ] at h
    have ih := countP_set_add p xs i a b h
    simp only [List.set_cons_succ, List.countP_cons]
    cases hpa : p a <;> cases hpb : p b <;> cases hpx : p x <;>
      simp [hpa, hpb, hpx] at ih ⊢ <;> omega

/-- Field bookkeeping for enqueue_task: it only appends to pending. -/
theorem enqueue_task_fields {τ : Type} (p : Pool τ) (t : τ) :
    (enqueue_task p t).1.pending = p.pending ++ [t] ∧
    (enqueue_task p t).1.waiting_threads = p.waiting_threads ∧
    (enqueue_task p t).1.stop_work = p.stop_work ∧
    (enqueue_task p t).1.num_threads = p.num_threads := by
  simp [enqueue_task]

/-- Field bookkeeping for the exit section as performed by worker i (in phase
ph): worker-list length, stop_work and num_threads are preserved,
waiting_threads drops by one, the new phase of worker i is never the blocked
one, and no other worker moves. -/
theorem finishStep_fields {G : Type} (t : Sys G) (i : Nat) (ph : WPhase)
    (hw : t.workers[i]? = some ph) :
    (finishStep t i).workers.length = t.workers.length ∧
    (finishStep t i).pool.num_threads = t.pool.num_threads ∧
    (finishStep t i).pool.stop_work = t.pool.stop_work ∧
    (finishStep t i).pool.waiting_threads = t.pool.waiting_threads - 1 ∧
    (finishStep t i).workers.countP isWaitingPh +
        (if isWaitingPh ph then 1 else 0) = t.workers.countP isWaitingPh := by
  unfold finishStep
  rcases hp : t.pool.pending with _ | ⟨a, rest⟩ <;>
    simp only [dequeue_finish, hp] <;>
    refine ⟨by simp, by simp, by simp, by simp, ?_⟩
  · have h := countP_set_add isWaitingPh t.workers i ph WPhase.exited hw
    simpa [isWaitingPh] using h
  · have h := countP_set_add isWaitingPh t.workers i ph (WPhase.ready a) hw
    simpa [isWaitingPh] using h

/-- No transition ever clears the stop_work flag. -/
theorem stop_mono_step {G : Type} (run : G → Nat → G × List (Nat × Bool))
    (seed : Nat × Bool) (l : Label) (s s' : Sys G)
    (hstep : step run seed l s = some s') (h : s.pool.stop_work = true) :
    s'.pool.stop_work = true := by
  cases l with
  | wEnter i =>
    simp only [step] at hstep
    split at hstep
    next hw =>
      split at hstep
      next =>
        injection hstep with hs'
        subst hs'
        exact dequeue_enter_stop_mono s.pool h
      next =>
        injection hstep with hs'
        subst hs'
        have hfin :=
          (finishStep_fields ({ s with pool := (dequeue_enter s.pool).pool }) i
            WPhase.start hw).2.2.1
        rw [hfin]
        exact dequeue_enter_stop_mono s.pool h
    next => exact Option.noConfusion hstep
  | wWake i =>
    simp only [step] at hstep
    split at hstep
    next hw =>
      split at hstep
      next => exact Option.noConfusion hstep
      next =>
        injection hstep with hs'
        subst hs'
        rw [(finishStep_fields s i WPhase.waiting hw).2.2.1]
        exact h
    next => exact Option.noConfusion hstep
  | wRun i =>
    simp only [step] at hstep
    split at hstep
    next =>
      injection hstep with hs'
      subst hs'
      exact h
    next => exact Option.noConfusion hstep
  | wEnq i =>
    simp only [step] at hstep
    split at hstep
    next =>
      injection hstep with hs'
      subst hs'
      simpa [enqueue_task] using h
    next => exact Option.noConfusion hstep
  | wFin i =>
    simp only [step] at hstep
    split at hstep
    next =>
      injection hstep with hs'
      subst hs'
      exact h
    next => exact Option.noConfusion hstep
  | mSeed =>
    simp only [step] at hstep
    split at hstep
    next =>
      injection hstep with hs'
      subst hs'
      simpa [enqueue_task] using h
    next => exact Option.noConfusion hstep
  | mDrain =>
    simp only [step] at hstep
    split at hstep
    next =>
      split at hstep
      next =>
        injection hstep with hs'
        subst hs'
        exact h
      next => exact Option.noConfusion hstep
    next => exact Option.noConfusion hstep
  | mJoin =>
    simp only [step] at hstep
    split at hstep
    next =>
      split at hstep
      next =>
        injection hstep with hs'
        subst hs'
        exact h
      next => exact Option.noConfusion hstep
    next => exact Option.noConfusion hstep
  | mTear =>
    simp only [step] at hstep
    split at hstep
    next =>
      injection hstep with hs'
      subst hs'
      exact h
    next => exact Option.noConfusion hstep

/-- No schedule ever clears the stop_work flag. -/
theorem stop_mono_exec {G : Type} (run : G → Nat → G × List (Nat × Bool))
    (seed : Nat × Bool) :
    ∀ (ls : List Label) (s s' : Sys G),
      execLabels run seed ls s = some s' →
      s.pool.stop_work = true → s'.pool.stop_work = true
  | [], s, s', h, hs => by
    simp only [execLabels, Option.some.injEq] at h
    subst h
    exact hs
  | l :: ls, s, s', h, hs => by
    simp only [execLabels] at h
    cases hstep : step run seed l s with
    | none => rw [hstep] at h; exact Option.noConfusion h
    | some s2 =>
      rw [hstep] at h
      exact stop_mono_exec run seed ls s2 s' h
        (stop_mono_step run seed l s s2 hstep hs)

/-- Claim C6: stop_work starts false at pool construction (create_threadpool,
os_threadpool.c line 186), and once true it stays true across every transition
of every operation (enqueue_task, dequeue_task, wait_for_completion, the
worker loop and teardown) and hence across every schedule; so the
false-to-true transition happens at most once. -/
theorem stop_work_starts_false_and_monotone {G : Type}
    (run : G → Nat → G × List (Nat × Bool)) (seed : Nat × Bool) (N : Nat) (g0 : G) :
    (initSys N g0).pool.stop_work = false ∧
    (∀ l s s', step run seed l s = some s' →
        s.pool.stop_work = true → s'.pool.stop_work = true) ∧
    (∀ ls s s', execLabels run seed ls s = some s' →
        s.pool.stop_work = true → s'.pool.stop_work = true) :=
  ⟨rfl, fun l s s' => stop_mono_step run seed l s s',
    fun ls s s' => stop_mono_exec run seed ls s s'⟩

/-- Witness for C6: a one-worker pool with stop_work already set takes a
dequeue transition and stop_work is still set afterwards. -/
theorem stop_work_starts_false_and_monotone_witness :
    step runUnit (0, false) (Label.wEnter 0)
        (⟨⟨[], 0, true, 1⟩, [WPhase.start], (), none, MainPhase.init, 0, [], []⟩ : Sys Unit) =
      some (⟨⟨[], 0, true, 1⟩, [WPhase.exited], (), none, MainPhase.init, 0, [], []⟩ : Sys Unit) ∧
    (⟨⟨[], 0, true, 1⟩, [WPhase.exited], (), none, MainPhase.init, 0, [], []⟩ : Sys Unit).pool.stop_work = true :=
  ⟨by decide,
    (stop_work_starts_false_and_monotone runUnit (0, false) 1 ()).2.1 (Label.wEnter 0)
      (⟨⟨[], 0, true, 1⟩, [WPhase.start], (), none, MainPhase.init, 0, [], []⟩ : Sys Unit)
      (⟨⟨[], 0, true, 1⟩, [WPhase.exited], (), none, MainPhase.init, 0, [], []⟩ : Sys Unit)
      (by decide) rfl⟩

/-- The waiting-count invariant: the worker list is as long as num_threads,
num_threads keeps its construction value, and waiting_threads equals the
number of workers blocked in pthread_cond_wait. -/
def InvW {G : Type} (N : Nat) (s : Sys G) : Prop :=
  s.workers.length = s.pool.num_threads ∧
  s.pool.num_threads = N ∧
  s.pool.waiting_threads = (s.workers.countP isWaitingPh : Int)

/-- Every transition preserves the waiting-count invariant. -/
theorem invW_step {G : Type} (run : G → Nat → G × List (Nat × Bool))
    (seed : Nat × Bool) (N : Nat) (l : Label) (s s' : Sys G)
    (hinv : InvW N s) (hstep : step run seed l s = some s') : InvW N s' := by
  obtain ⟨hlen, hN, hwait⟩ := hinv
  unfold InvW
  cases l with
  | wEnter i =>
    simp only [step] at hstep
    split at hstep
    next hw =>
      split at hstep
      next =>
        injection hstep with hs'
        subst hs'
        refine ⟨?_, ?_, ?_⟩
        · show (s.workers.set i WPhase.waiting).length =
            (dequeue_enter s.pool).pool.num_threads
          rw [List.length_set, (dequeue_enter_fields s.pool).2.2]
          exact hlen
        · show (dequeue_enter s.pool).pool.num_threads = N
          rw [(dequeue_enter_fields s.pool).2.2]
          exact hN
        · show (dequeue_enter s.pool).pool.waiting_threads =
            ((s.workers.set i WPhase.waiting).countP isWaitingPh : Int)
          have hc := countP_set_add isWaitingPh s.workers i WPhase.start
            WPhase.waiting hw
          norm_num [isWaitingPh] at hc
          rw [(dequeue_enter_fields s.pool).2.1, hc, hwait]
          push_cast
          omega
      next =>
        injection hstep with hs'
        subst hs'
        have hff := finishStep_fields
          ({ s with pool := (dequeue_enter s.pool).pool }) i WPhase.start hw
        have hcnt := hff.2.2.2.2
        norm_num [isWaitingPh] at hcnt
        refine ⟨?_, ?_, ?_⟩
        · rw [hff.1, hff.2.1]
          show s.workers.length = (dequeue_enter s.pool).pool.num_threads
          rw [(dequeue_enter_fields s.pool).2.2]
          exact hlen
        · rw [hff.2.1]
          show (dequeue_enter s.pool).pool.num_threads = N
          rw [(dequeue_enter_fields s.pool).2.2]
          exact hN
        · rw [hff.2.2.2.1, hcnt]
          show (dequeue_enter s.pool).pool.waiting_threads - 1 =
            (s.workers.countP isWaitingPh : Int)
          rw [(dequeue_enter_fields s.pool).2.1, hwait]
          omega
    next => exact Option.noConfusion hstep
  | wWake i =>
    simp only [step] at hstep
    split at hstep
    next hw =>
      split at hstep
      next => exact Option.noConfusion hstep
      next =>
        injection hstep with hs'
        subst hs'
        have hff := finishStep_fields s i WPhase.waiting hw
        have hcnt := hff.2.2.2.2
        norm_num [isWaitingPh] at hcnt
        refine ⟨?_, ?_, ?_⟩
        · rw [hff.1, hff.2.1]
          exact hlen
        · rw [hff.2.1]
          exact hN
        · rw [hff.2.2.2.1, hwait]
          omega
    next => exact Option.noConfusion hstep
  | wRun i =>
    simp only [step] at hstep
    split at hstep
    next t hw hl =>
      injection hstep with hs'
      subst hs'
      have hc := countP_set_add isWaitingPh s.workers i (WPhase.ready t)
        (WPhase.enqueuing t (run s.g t.arg).2) hw
      norm_num [isWaitingPh] at hc
      refine ⟨?_, ?_, ?_⟩
      · show (s.workers.set i (WPhase.enqueuing t (run s.g t.arg).2)).length =
          s.pool.num_threads
        rw [List.length_set]
        exact hlen
      · exact hN
      · show s.pool.waiting_threads =
          ((s.workers.set i (WPhase.enqueuing t (run s.g t.arg).2)).countP isWaitingPh : Int)
        rw [hc]
        exact hwait
    next => exact Option.noConfusion hstep
  | wEnq i =>
    simp only [step] at hstep
    split at hstep
    next t a d todo hw =>
      injection hstep with hs'
      subst hs'
      have hc := countP_set_add isWaitingPh s.workers i
        (WPhase.enqueuing t ((a, d) :: todo)) (WPhase.enqueuing t todo) hw
      norm_num [isWaitingPh] at hc
      refine ⟨?_, ?_, ?_⟩
      · show (s.workers.set i (WPhase.enqueuing t todo)).length =
          (enqueue_task s.pool ⟨s.nextId, a, d⟩).1.num_threads
        rw [List.length_set, (enqueue_task_fields s.pool _).2.2.2]
        exact hlen
      · show (enqueue_task s.pool ⟨s.nextId, a, d⟩).1.num_threads = N
        rw [(enqueue_task_fields s.pool _).2.2.2]
        exact hN
      · show (enqueue_task s.pool ⟨s.nextId, a, d⟩).1.waiting_threads =
          ((s.workers.set i (WPhase.enqueuing t todo)).countP isWaitingPh : Int)
        rw [(enqueue_task_fields s.pool _).2.1, hc]
        exact hwait
    next => exact Option.noConfusion hstep
  | wFin i =>
    simp only [step] at hstep
    split at hstep
    next t hw =>
      injection hstep with hs'
      subst hs'
      have hc := countP_set_add isWaitingPh s.workers i (WPhase.enqueuing t [])
        WPhase.start hw
      norm_num [isWaitingPh] at hc
      refine ⟨?_, ?_, ?_⟩
      · show (s.workers.set i WPhase.start).length = s.pool.num_threads
        rw [List.length_set]
        exact hlen
      · exact hN
      · show s.pool.waiting_threads =
          ((s.workers.set i WPhase.start).countP isWaitingPh : Int)
        rw [hc]
        exact hwait
    next => exact Option.noConfusion hstep
  | mSeed =>
    simp only [step] at hstep
    split at hstep
    next =>
      injection hstep with hs'
      subst hs'
      refine ⟨?_, ?_, ?_⟩
      · show s.workers.length = (enqueue_task s.pool _).1.num_threads
        rw [(enqueue_task_fields s.pool _).2.2.2]
        exact hlen
      · show (enqueue_task s.pool _).1.num_threads = N
        rw [(enqueue_task_fields s.pool _).2.2.2]
        exact hN
      · show (enqueue_task s.pool _).1.waiting_threads =
          (s.workers.countP isWaitingPh : Int)
        rw [(enqueue_task_fields s.pool _).2.1]
        exact hwait
    next => exact Option.noConfusion hstep
  | mDrain =>
    simp only [step] at hstep
    split at hstep
    next =>
      split at hstep
      next =>
        injection hstep with hs'
        subst hs'
        exact ⟨hlen, hN, hwait⟩
      next => exact Option.noConfusion hstep
    next => exact Option.noConfusion hstep
  | mJoin =>
    simp only [step] at hstep
    split at hstep
    next =>
      split at hstep
      next =>
        injection hstep with hs'
        subst hs'
        exact ⟨hlen, hN, hwait⟩
      next => exact Option.noConfusion hstep
    next => exact Option.noConfusion hstep
  | mTear =>
    simp only [step] at hstep
    split at hstep
    next =>
      injection hstep with hs'
      subst hs'
      exact ⟨hlen, hN, hwait⟩
    next => exact Option.noConfusion hstep

/-- Every schedule preserves the waiting-count invariant. -/
theorem invW_exec {G : Type} (run : G → Nat → G × List (Nat × Bool))
    (seed : Nat × Bool) (N : Nat) :
    ∀ (ls : List Label) (s s' : Sys G),
      execLabels run seed ls s = some s' → InvW N s → InvW N s'
  | [], s, s', h, hs => by
    simp only [execLabels, Option.some.injEq] at h
    subst h
    exact hs
  | l :: ls, s, s', h, hs => by
    simp only [execLabels] at h
    cases hstep : step run seed l s with
    | none => rw [hstep] at h; exact Option.noConfusion h
    | some s2 =>
      rw [hstep] at h
      exact invW_exec run seed N ls s2 s' h
        (invW_step run seed N l s s2 hs hstep)

/-- The freshly constructed pool satisfies the waiting-count invariant. -/
theorem invW_initSys {G : Type} (N : Nat) (g0 : G) : InvW N (initSys N g0) := by
  unfold InvW initSys
  simp [List.countP_eq_zero.mpr, isWaitingPh]

/-- Claim C7: in every state reachable from construction, the idle-worker
count satisfies 0 <= waiting_threads <= num_threads, and num_threads still has
the value fixed at construction: no operation modifies it. -/
theorem waiting_threads_bounds {G : Type} (run : G → Nat → G × List (Nat × Bool))
    (seed : Nat × Bool) (N : Nat) (g0 : G) (ls : List Label) (s : Sys G)
    (hreach : execLabels run seed ls (initSys N g0) = some s) :
    0 ≤ s.pool.waiting_threads ∧
    s.pool.waiting_threads ≤ (s.pool.num_threads : Int) ∧
    s.pool.num_threads = N := by
  obtain ⟨hlen, hN, hwait⟩ :=
    invW_exec run seed N ls (initSys N g0) s hreach (invW_initSys N g0)
  have hle : s.workers.countP isWaitingPh ≤ s.workers.length :=
    List.countP_le_length isWaitingPh
  rw [hlen] at hle
  refine ⟨?_, ?_, hN⟩
  · rw [hwait]; positivity
  · rw [hwait]; exact_mod_cast hle

/-- Witness for C7: the two-worker pool after one worker has gone idle. -/
theorem waiting_threads_bounds_witness :
    0 ≤ (⟨⟨[], 1, false, 2⟩, [WPhase.waiting, WPhase.start], (), none,
          MainPhase.init, 0, [], []⟩ : Sys Unit).pool.waiting_threads ∧
    (⟨⟨[], 1, false, 2⟩, [WPhase.waiting, WPhase.start], (), none,
        MainPhase.init, 0, [], []⟩ : Sys Unit).pool.waiting_threads ≤
      ((⟨⟨[], 1, false, 2⟩, [WPhase.waiting, WPhase.start], (), none,
          MainPhase.init, 0, [], []⟩ : Sys Unit).pool.num_threads : Int) ∧
    (⟨⟨[], 1, false, 2⟩, [WPhase.waiting, WPhase.start], (), none,
        MainPhase.init, 0, [], []⟩ : Sys Unit).pool.num_threads = 2 :=
  waiting_threads_bounds runUnit (0, false) 2 () [Label.wEnter 0] _ (by decide)

/-! ## Ownership of tasks: pending, held by a worker, or disposed -/

/-- Whether a worker control location currently owns the task with the given
identifier (between dequeue_task returning it and destroy_task). -/
def holdsTid (tid : Nat) : WPhase → Bool
  | WPhase.ready t => t.tid == tid
  | WPhase.enqueuing t _ => t.tid == tid
  | _ => false

/-- How many places own task tid: occurrences in the pending queue, workers
holding it, and completed destroy_task calls on it. -/
def owners {G : Type} (s : Sys G) (tid : Nat) : Nat :=
  s.pool.pending.countP (fun t => t.tid == tid) +
    s.workers.countP (holdsTid tid) + s.disposed.count tid

/-- The ownership invariant: every created task is owned exactly once, no
uncreated identifier is owned, once the main thread is past pthread_join all
workers have exited, and after destroy_threadpool the queue is empty. -/
def InvO {G : Type} (s : Sys G) : Prop :=
  (∀ tid, tid < s.nextId → owners s tid = 1) ∧
  (∀ tid, s.nextId ≤ tid → owners s tid = 0) ∧
  ((s.mainPh = MainPhase.teardown ∨ s.mainPh = MainPhase.done) →
    s.workers.all (fun w => w == WPhase.exited) = true) ∧
  (s.mainPh = MainPhase.done → s.pool.pending = [])

/-- A worker index visible in an all-exited worker list is exited. -/
theorem phase_of_all_exited {G : Type} (s : Sys G) (i : Nat) (ph : WPhase)
    (hall : s.workers.all (fun w => w == WPhase.exited) = true)
    (hw : s.workers[i]? = some ph) : ph = WPhase.exited := by
  have hmem : ph ∈ s.workers := List.getElem?_mem hw
  have h := List.all_eq_true.mp hall ph hmem
  simpa using h

/-- An all-exited worker list holds no task. -/
theorem countP_holds_of_all_exited :
    ∀ (ws : List WPhase), ws.all (fun w => w == WPhase.exited) = true →
      ∀ tid, ws.countP (holdsTid tid) = 0
  | [], _, _ => rfl
  | w :: ws, h, tid => by
    simp only [List.all_cons, Bool.and_eq_true, beq_iff_eq] at h
    obtain ⟨hw, hws⟩ := h
    subst hw
    simp [List.countP_cons, holdsTid, countP_holds_of_all_exited ws hws tid]

/-- Counting a task identifier among the identifiers of a task list. -/
theorem count_map_tid :
    ∀ (P : List Tsk) (tid : Nat),
      (P.map Tsk.tid).count tid = P.countP (fun t => t.tid == tid)
  | [], _ => rfl
  | t :: P, tid => by
    simp only [List.map_cons, List.count_cons, List.countP_cons,
      count_map_tid P tid]

/-- The exit section of dequeue_task on an empty queue. -/
theorem finishStep_eq_nil {G : Type} (t : Sys G) (i : Nat)
    (hp : t.pool.pending = []) :
    finishStep t i =
      { t with
        pool := { t.pool with pending := [],
                              waiting_threads := t.pool.waiting_threads - 1 },
        workers := t.workers.set i WPhase.exited } := by
  unfold finishStep dequeue_finish
  rw [hp]

/-- The exit section of dequeue_task on a non-empty queue. -/
theorem finishStep_eq_cons {G : Type} (t : Sys G) (i : Nat) (a : Tsk)
    (rest : List Tsk) (hp : t.pool.pending = a :: rest) :
    finishStep t i =
      { t with
        pool := { t.pool with pending := rest,
                              waiting_threads := t.pool.waiting_threads - 1 },
        workers := t.workers.set i (WPhase.ready a) } := by
  unfold finishStep dequeue_finish
  rw [hp]

/-- Every transition preserves the ownership invariant. -/
theorem invO_step {G : Type} (run : G → Nat → G × List (Nat × Bool))
    (seed : Nat × Bool) (l : Label) (s s' : Sys G)
    (hinv : InvO s) (hstep : step run seed l s = some s') : InvO s' := by
  obtain ⟨hlt, hge, hex, hpend⟩ := hinv
  unfold InvO
  cases l with
  | wEnter i =>
    simp only [step] at hstep
    split at hstep
    next hw =>
      have hpt : ({ s with pool := (dequeue_enter s.pool).pool } : Sys G).pool.pending =
          s.pool.pending := (dequeue_enter_fields s.pool).1
      split at hstep
      next =>
        injection hstep with hs'
        subst hs'
        have howners : ∀ tid,
            owners ({ s with pool := (dequeue_enter s.pool).pool,
                             workers := s.workers.set i WPhase.waiting } : Sys G) tid =
              owners s tid := by
          intro tid
          show (dequeue_enter s.pool).pool.pending.countP (fun t => t.tid == tid) +
              (s.workers.set i WPhase.waiting).countP (holdsTid tid) +
              s.disposed.count tid =
            s.pool.pending.countP (fun t => t.tid == tid) +
              s.workers.countP (holdsTid tid) + s.disposed.count tid
          rw [(dequeue_enter_fields s.pool).1]
          have hc := countP_set_add (holdsTid tid) s.workers i WPhase.start
            WPhase.waiting hw
          norm_num [holdsTid] at hc
          rw [hc]
        refine ⟨?_, ?_, ?_, ?_⟩
        · intro tid h
          rw [howners tid]
          exact hlt tid h
        · intro tid h
          rw [howners tid]
          exact hge tid h
        · intro hmp
          exfalso
          have hphx := phase_of_all_exited s i WPhase.start (hex hmp) hw
          simp at hphx
        · intro hmp
          exfalso
          have hphx := phase_of_all_exited s i WPhase.start (hex (Or.inr hmp)) hw
          simp at hphx
      next =>
        injection hstep with hs'
        subst hs'
        rcases hp : s.pool.pending with _ | ⟨a, rest⟩
        · have hfe := finishStep_eq_nil
            ({ s with pool := (dequeue_enter s.pool).pool }) i (hpt.trans hp)
          have hnext : (finishStep ({ s with pool := (dequeue_enter s.pool).pool }) i).nextId =
              s.nextId := by rw [hfe]
          have hmain : (finishStep ({ s with pool := (dequeue_enter s.pool).pool }) i).mainPh =
              s.mainPh := by rw [hfe]
          have howners : ∀ tid,
              owners (finishStep ({ s with pool := (dequeue_enter s.pool).pool }) i) tid =
                owners s tid := by
            intro tid
            rw [hfe]
            show ([] : List Tsk).countP (fun t => t.tid == tid) +
                (s.workers.set i WPhase.exited).countP (holdsTid tid) +
                s.disposed.count tid =
              s.pool.pending.countP (fun t => t.tid == tid) +
                s.workers.countP (holdsTid tid) + s.disposed.count tid
            rw [hp]
            have hc := countP_set_add (holdsTid tid) s.workers i WPhase.start
              WPhase.exited hw
            norm_num [holdsTid] at hc
            rw [hc]
          refine ⟨?_, ?_, ?_, ?_⟩
          · intro tid h
            rw [hnext] at h
            rw [howners tid]
            exact hlt tid h
          · intro tid h
            rw [hnext] at h
            rw [howners tid]
            exact hge tid h
          · intro hmp
            rw [hmain] at hmp
            exfalso
            have hphx := phase_of_all_exited s i WPhase.start (hex hmp) hw
            simp at hphx
          · intro hmp
            rw [hmain] at hmp
            exfalso
            have hphx := phase_of_all_exited s i WPhase.start (hex (Or.inr hmp)) hw
            simp at hphx
        · have hfe := finishStep_eq_cons
            ({ s with pool := (dequeue_enter s.pool).pool }) i a rest (hpt.trans hp)
          have hnext : (finishStep ({ s with pool := (dequeue_enter s.pool).pool }) i).nextId =
              s.nextId := by rw [hfe]
          have hmain : (finishStep ({ s with pool := (dequeue_enter s.pool).pool }) i).mainPh =
              s.mainPh := by rw [hfe]
          have howners : ∀ tid,
              owners (finishStep ({ s with pool := (dequeue_enter s.pool).pool }) i) tid =
                owners s tid := by
            intro tid
            rw [hfe]
            show rest.countP (fun t => t.tid == tid) +
                (s.workers.set i (WPhase.ready a)).countP (holdsTid tid) +
                s.disposed.count tid =
              s.pool.pending.countP (fun t => t.tid == tid) +
                s.workers.countP (holdsTid tid) + s.disposed.count tid
            rw [hp, List.countP_cons]
            have hc := countP_set_add (holdsTid tid) s.workers i WPhase.start
              (WPhase.ready a) hw
            simp only [holdsTid] at hc
            cases hat : a.tid == tid <;> simp [hat] at hc ⊢ <;> omega
          refine ⟨?_, ?_, ?_, ?_⟩
          · intro tid h
            rw [hnext] at h
            rw [howners tid]
            exact hlt tid h
          · intro tid h
            rw [hnext] at h
            rw [howners tid]
            exact hge tid h
          · intro hmp
            rw [hmain] at hmp
            exfalso
            have hphx := phase_of_all_exited s i WPhase.start (hex hmp) hw
            simp at hphx
          · intro hmp
            rw [hmain] at hmp
            exfalso
            have hphx := phase_of_all_exited s i WPhase.start (hex (Or.inr hmp)) hw
            simp at hphx
    next => exact Option.noConfusion hstep
  | wWake i =>
    simp only [step] at hstep
    split at hstep
    next hw =>
      split at hstep
      next => exact Option.noConfusion hstep
      next =>
        injection hstep with hs'
        subst hs'
        rcases hp : s.pool.pending with _ | ⟨a, rest⟩
        · have hfe := finishStep_eq_nil s i hp
          have hnext : (finishStep s i).nextId = s.nextId := by rw [hfe]
          have hmain : (finishStep s i).mainPh = s.mainPh := by rw [hfe]
          have howners : ∀ tid, owners (finishStep s i) tid = owners s tid := by
            intro tid
            rw [hfe]
            show ([] : List Tsk).countP (fun t => t.tid == tid) +
                (s.workers.set i WPhase.exited).countP (holdsTid tid) +
                s.disposed.count tid =
              s.pool.pending.countP (fun t => t.tid == tid) +
                s.workers.countP (holdsTid tid) + s.disposed.count tid
            rw [hp]
            have hc := countP_set_add (holdsTid tid) s.workers i WPhase.waiting
              WPhase.exited hw
            norm_num [holdsTid] at hc
            rw [hc]
          refine ⟨?_, ?_, ?_, ?_⟩
          · intro tid h
            rw [hnext] at h
            rw [howners tid]
            exact hlt tid h
          · intro tid h
            rw [hnext] at h
            rw [howners tid]
            exact hge tid h
          · intro hmp
            rw [hmain] at hmp
            exfalso
            have hphx := phase_of_all_exited s i WPhase.waiting (hex hmp) hw
            simp at hphx
          · intro hmp
            rw [hmain] at hmp
            exfalso
            have hphx := phase_of_all_exited s i WPhase.waiting (hex (Or.inr hmp)) hw
            simp at hphx
        · have hfe := finishStep_eq_cons s i a rest hp
          have hnext : (finishStep s i).nextId = s.nextId := by rw [hfe]
          have hmain : (finishStep s i).mainPh = s.mainPh := by rw [hfe]
          have howners : ∀ tid, owners (finishStep s i) tid = owners s tid := by
            intro tid
            rw [hfe]
            show rest.countP (fun t => t.tid == tid) +
                (s.workers.set i (WPhase.ready a)).countP (holdsTid tid) +
                s.disposed.count tid =
              s.pool.pending.countP (fun t => t.tid == tid) +
                s.workers.countP (holdsTid tid) + s.disposed.count tid
            rw [hp, List.countP_cons]
            have hc := countP_set_add (holdsTid tid) s.workers i WPhase.waiting
              (WPhase.ready a) hw
            simp only [holdsTid] at hc
            cases hat : a.tid == tid <;> simp [hat] at hc ⊢ <;> omega
          refine ⟨?_, ?_, ?_, ?_⟩
          · intro tid h
            rw [hnext] at h
            rw [howners tid]
            exact hlt tid h
          · intro tid h
            rw [hnext] at h
            rw [howners tid]
            exact hge tid h
          · intro hmp
            rw [hmain] at hmp
            exfalso
            have hphx := phase_of_all_exited s i WPhase.waiting (hex hmp) hw
            simp at hphx
          · intro hmp
            rw [hmain] at hmp
            exfalso
            have hphx := phase_of_all_exited s i WPhase.waiting (hex (Or.inr hmp)) hw
            simp at hphx
    next => exact Option.noConfusion hstep
  | wRun i =>
    simp only [step] at hstep
    split at hstep
    next t hw hl =>
      injection hstep with hs'
      subst hs'
      have howners : ∀ tid,
          owners ({ s with
                    g := (run s.g t.arg).1,
                    graphLock := some i,
                    workers := s.workers.set i (WPhase.enqueuing t (run s.g t.arg).2),
                    executed := s.executed ++ [t.tid] } : Sys G) tid = owners s tid := by
        intro tid
        show s.pool.pending.countP (fun u => u.tid == tid) +
            (s.workers.set i (WPhase.enqueuing t (run s.g t.arg).2)).countP (holdsTid tid) +
            s.disposed.count tid =
          s.pool.pending.countP (fun u => u.tid == tid) +
            s.workers.countP (holdsTid tid) + s.disposed.count tid
        have hc := countP_set_add (holdsTid tid) s.workers i (WPhase.ready t)
          (WPhase.enqueuing t (run s.g t.arg).2) hw
        simp only [holdsTid] at hc
        omega
      refine ⟨?_, ?_, ?_, ?_⟩
      · intro tid h
        rw [howners tid]
        exact hlt tid h
      · intro tid h
        rw [howners tid]
        exact hge tid h
      · intro hmp
        exfalso
        have hphx := phase_of_all_exited s i (WPhase.ready t) (hex hmp) hw
        simp at hphx
      · intro hmp
        exfalso
        have hphx := phase_of_all_exited s i (WPhase.ready t) (hex (Or.inr hmp)) hw
        simp at hphx
    next => exact Option.noConfusion hstep
  | wEnq i =>
    simp only [step] at hstep
    split at hstep
    next t a d todo hw =>
      injection hstep with hs'
      subst hs'
      have howners : ∀ tid,
          owners ({ s with
                    pool := (enqueue_task s.pool ⟨s.nextId, a, d⟩).1,
                    nextId := s.nextId + 1,
                    workers := s.workers.set i (WPhase.enqueuing t todo) } : Sys G) tid =
            owners s tid + (if s.nextId = tid then 1 else 0) := by
        intro tid
        show (enqueue_task s.pool ⟨s.nextId, a, d⟩).1.pending.countP (fun u => u.tid == tid) +
            (s.workers.set i (WPhase.enqueuing t todo)).countP (holdsTid tid) +
            s.disposed.count tid =
          s.pool.pending.countP (fun u => u.tid == tid) +
            s.workers.countP (holdsTid tid) + s.disposed.count tid +
            (if s.nextId = tid then 1 else 0)
        rw [(enqueue_task_fields s.pool _).1, List.countP_append]
        have hc := countP_set_add (holdsTid tid) s.workers i
          (WPhase.enqueuing t ((a, d) :: todo)) (WPhase.enqueuing t todo) hw
        simp only [holdsTid] at hc
        by_cases hnt : s.nextId = tid <;>
          simp [List.countP_cons, hnt] <;> omega
      refine ⟨?_, ?_, ?_, ?_⟩
      · intro tid h
        have h2 : tid < s.nextId + 1 := h
        rw [howners tid]
        rcases Nat.lt_succ_iff_lt_or_eq.mp h2 with h3 | h3
        · rw [if_neg (by omega)]
          exact hlt tid h3
        · rw [if_pos h3.symm, hge tid (le_of_eq h3.symm)]
      · intro tid h
        have h2 : s.nextId + 1 ≤ tid := h
        rw [howners tid, if_neg (by omega)]
        exact hge tid (by omega)
      · intro hmp
        exfalso
        have hphx := phase_of_all_exited s i (WPhase.enqueuing t ((a, d) :: todo))
          (hex hmp) hw
        simp at hphx
      · intro hmp
        exfalso
        have hphx := phase_of_all_exited s i (WPhase.enqueuing t ((a, d) :: todo))
          (hex (Or.inr hmp)) hw
        simp at hphx
    next => exact Option.noConfusion hstep
  | wFin i =>
    simp only [step] at hstep
    split at hstep
    next t hw =>
      injection hstep with hs'
      subst hs'
      have howners : ∀ tid,
          owners ({ s with
                    graphLock := none,
                    disposed := s.disposed ++ [t.tid],
                    workers := s.workers.set i WPhase.start } : Sys G) tid = owners s tid := by
        intro tid
        show s.pool.pending.countP (fun u => u.tid == tid) +
            (s.workers.set i WPhase.start).countP (holdsTid tid) +
            (s.disposed ++ [t.tid]).count tid =
          s.pool.pending.countP (fun u => u.tid == tid) +
            s.workers.countP (holdsTid tid) + s.disposed.count tid
        rw [List.count_append]
        have hc := countP_set_add (holdsTid tid) s.workers i (WPhase.enqueuing t [])
          WPhase.start hw
        simp only [holdsTid] at hc
        cases hat : t.tid == tid <;>
          simp [List.count_cons, List.count_nil, hat] at hc ⊢ <;> omega
      refine ⟨?_, ?_, ?_, ?_⟩
      · intro tid h
        rw [howners tid]
        exact hlt tid h
      · intro tid h
        rw [howners tid]
        exact hge tid h
      · intro hmp
        exfalso
        have hphx := phase_of_all_exited s i (WPhase.enqueuing t []) (hex hmp) hw
        simp at hphx
      · intro hmp
        exfalso
        have hphx := phase_of_all_exited s i (WPhase.enqueuing t []) (hex (Or.inr hmp)) hw
        simp at hphx
    next => exact Option.noConfusion hstep
  | mSeed =>
    simp only [step] at hstep
    split at hstep
    next hm =>
      injection hstep with hs'
      subst hs'
      have howners : ∀ tid,
          owners ({ s with
                    pool := (enqueue_task s.pool ⟨s.nextId, seed.1, seed.2⟩).1,
                    nextId := s.nextId + 1,
                    mainPh := MainPhase.drainWait } : Sys G) tid =
            owners s tid + (if s.nextId = tid then 1 else 0) := by
        intro tid
        show (enqueue_task s.pool ⟨s.nextId, seed.1, seed.2⟩).1.pending.countP
              (fun u => u.tid == tid) +
            s.workers.countP (holdsTid tid) + s.disposed.count tid =
          s.pool.pending.countP (fun u => u.tid == tid) +
            s.workers.countP (holdsTid tid) + s.disposed.count tid +
            (if s.nextId = tid then 1 else 0)
        rw [(enqueue_task_fields s.pool _).1, List.countP_append]
        by_cases hnt : s.nextId = tid <;>
          simp [List.countP_cons, hnt] <;> omega
      refine ⟨?_, ?_, ?_, ?_⟩
      · intro tid h
        have h2 : tid < s.nextId + 1 := h
        rw [howners tid]
        rcases Nat.lt_succ_iff_lt_or_eq.mp h2 with h3 | h3
        · rw [if_neg (by omega)]
          exact hlt tid h3
        · rw [if_pos h3.symm, hge tid (le_of_eq h3.symm)]
      · intro tid h
        have h2 : s.nextId + 1 ≤ tid := h
        rw [howners tid, if_neg (by omega)]
        exact hge tid (by omega)
      · intro hmp
        exact absurd hmp (by simp)
      · intro hmp
        exact absurd hmp (by simp)
    next => exact Option.noConfusion hstep
  | mDrain =>
    simp only [step] at hstep
    split at hstep
    next =>
      split at hstep
      next =>
        injection hstep with hs'
        subst hs'
        refine ⟨fun tid h => hlt tid h, fun tid h => hge tid h, ?_, ?_⟩
        · intro hmp
          exact absurd hmp (by simp)
        · intro hmp
          exact absurd hmp (by simp)
      next => exact Option.noConfusion hstep
    next => exact Option.noConfusion hstep
  | mJoin =>
    simp only [step] at hstep
    split at hstep
    next hm =>
      split at hstep
      next hall =>
        injection hstep with hs'
        subst hs'
        refine ⟨fun tid h => hlt tid h, fun tid h => hge tid h, ?_, ?_⟩
        · intro _
          exact hall
        · intro hmp
          exact absurd hmp (by simp)
      next => exact Option.noConfusion hstep
    next => exact Option.noConfusion hstep
  | mTear =>
    simp only [step] at hstep
    split at hstep
    next hm =>
      injection hstep with hs'
      subst hs'
      have howners : ∀ tid,
          owners ({ s with
                    disposed := s.disposed ++ s.pool.pending.map Tsk.tid,
                    pool := { s.pool with pending := [] },
                    mainPh := MainPhase.done } : Sys G) tid = owners s tid := by
        intro tid
        show ([] : List Tsk).countP (fun u => u.tid == tid) +
            s.workers.countP (holdsTid tid) +
            (s.disposed ++ s.pool.pending.map Tsk.tid).count tid =
          s.pool.pending.countP (fun u => u.tid == tid) +
            s.workers.countP (holdsTid tid) + s.disposed.count tid
        rw [List.count_append, count_map_tid]
        simp
        omega
      refine ⟨?_, ?_, ?_, ?_⟩
      · intro tid h
        rw [howners tid]
        exact hlt tid h
      · intro tid h
        rw [howners tid]
        exact hge tid h
      · intro _
        exact hex (Or.inl hm)
      · intro _
        rfl
    next => exact Option.noConfusion hstep

/-- Every schedule preserves the ownership invariant. -/
theorem invO_exec {G : Type} (run : G → Nat → G × List (Nat × Bool))
    (seed : Nat × Bool) :
    ∀ (ls : List Label) (s s' : Sys G),
      execLabels run seed ls s = some s' → InvO s → InvO s'
  | [], s, s', h, hs => by
    simp only [execLabels, Option.some.injEq] at h
    subst h
    exact hs
  | l :: ls, s, s', h, hs => by
    simp only [execLabels] at h
    cases hstep : step run seed l s with
    | none => rw [hstep] at h; exact Option.noConfusion h
    | some s2 =>
      rw [hstep] at h
      exact invO_exec run seed ls s2 s' h (invO_step run seed l s s2 hs hstep)

/-- The freshly constructed pool satisfies the ownership invariant. -/
theorem invO_initSys {G : Type} (N : Nat) (g0 : G) : InvO (initSys N g0) := by
  refine ⟨?_, ?_, ?_, ?_⟩
  · intro tid h
    have h2 : tid < 0 := h
    exact absurd h2 (by omega)
  · intro tid _
    show ([] : List Tsk).countP (fun t => t.tid == tid) +
        (List.replicate N WPhase.start).countP (holdsTid tid) +
        ([] : List Nat).count tid = 0
    have hz : (List.replicate N WPhase.start).countP (holdsTid tid) = 0 :=
      List.countP_eq_zero.mpr (fun w hw => by
        rw [List.eq_of_mem_replicate hw]; simp [holdsTid])
    simp [hz]
  · intro h
    have h2 : MainPhase.init = MainPhase.teardown ∨
        MainPhase.init = MainPhase.done := h
    rcases h2 with h2 | h2 <;> exact absurd h2 (by decide)
  · intro h
    have h2 : MainPhase.init = MainPhase.done := h
    exact absurd h2 (by decide)

/-- Claim C5: in any completed run (main past destroy_threadpool), every task
ever submitted to the pool has been passed to destroy_task exactly once -
either by the worker loop right after its action ran, or by teardown if it was
never dequeued - never zero times and never twice; destroy_task invokes the
task's destructor (when provided) on its argument exactly once per call. -/
theorem task_disposed_exactly_once {G : Type} (run : G → Nat → G × List (Nat × Bool))
    (seed : Nat × Bool) (N : Nat) (g0 : G) (ls : List Label) (s : Sys G)
    (hreach : execLabels run seed ls (initSys N g0) = some s)
    (hdone : s.mainPh = MainPhase.done) :
    ∀ tid, tid < s.nextId → s.disposed.count tid = 1 := by
  obtain ⟨hlt, hge, hex, hpend⟩ :=
    invO_exec run seed ls (initSys N g0) s hreach (invO_initSys N g0)
  intro tid htid
  have h1 := hlt tid htid
  unfold owners at h1
  rw [hpend hdone,
    countP_holds_of_all_exited s.workers (hex (Or.inr hdone)) tid] at h1
  simpa using h1

/-- Witness for C5: a one-worker pool runs the seed task to completion and
tears down; the single submitted task is disposed exactly once. -/
theorem task_disposed_exactly_once_witness :
    (⟨⟨[], 0, true, 1⟩, [WPhase.exited], (), none, MainPhase.done, 1, [0],
        [0]⟩ : Sys Unit).disposed.count 0 = 1 :=
  task_disposed_exactly_once runUnit (0, false) 1 ()
    [Label.mSeed, Label.wEnter 0, Label.wRun 0, Label.wFin 0, Label.wEnter 0,
     Label.mDrain, Label.mJoin, Label.mTear]
    (⟨⟨[], 0, true, 1⟩, [WPhase.exited], (), none, MainPhase.done, 1, [0],
        [0]⟩ : Sys Unit)
    (by decide) rfl 0 (by decide)

end OsTp
